import Mathlib

/-!
Verification of the FEN-preprocessing pipeline of `fenpreprocessing.py`:
the board encoder `fen_to_array`, the puzzle advancer `single_move` /
`puzzle_cleaning`, the move expander `possible_moves`, and the streaming
converter `make_converted_file`.  The external rules engine (python-chess)
is modelled from the spec as an executable chess model.  Machine floats in
the source only ever hold the exact values 0.0 and 1.0, so labels and
vector entries are embedded as `Nat`.
-/

deriving instance DecidableEq for Except

/-- Error values for the fallible operations of the pipeline.  They name the
error classes of the spec (`InvalidBoardLength`, `InvalidPieceSymbol`,
`MalformedFenError`, `IllegalMoveError`) plus the Python-level failures the
code can raise (an out-of-range index, an unparseable UCI move string). -/
inductive PrepError where
  | indexError : PrepError
  | invalidBoardLength : Nat → PrepError
  | invalidPieceSymbol : Char → PrepError
  | malformedFen : PrepError
  | invalidMove : String → PrepError
  | illegalMove : String → PrepError
deriving DecidableEq, Repr

/-- Split a character list at every character satisfying `p`, keeping empty
pieces (the behaviour of Python `str.split(sep)`). -/
def splitChars (p : Char → Bool) : List Char → List (List Char)
  | [] => [[]]
  | c :: cs =>
    match splitChars p cs with
    | [] => if p c then [[], [c]] else [[c]]
    | w :: ws => if p c then [] :: w :: ws else (c :: w) :: ws

/-- Python `str.split()` with no argument: split on whitespace and drop the
empty pieces. -/
def pyWords (s : List Char) : List (List Char) :=
  (splitChars (fun c => c.isWhitespace) s).filter (fun w => !w.isEmpty)

/-- One step of the board-string expansion of `fen_to_array` (lines 15-18 of
the source): a digit `'1'`..`'8'` becomes that many `'0'` markers, every
other character stands for itself. -/
def expandChar (c : Char) : List Char :=
  if ['1', '2', '3', '4', '5', '6', '7', '8'].contains c then
    List.replicate (c.toNat - '0'.toNat) '0'
  else [c]

/-- The 64-character board string of `fen_to_array`: take the first
whitespace-delimited token of the FEN (`fen.split()[0]`, an `IndexError`
when there is none), split it on `'/'` and expand each row character by
character. -/
def boardString (fen : String) : Except PrepError (List Char) :=
  match (pyWords fen.data).head? with
  | none => .error .indexError
  | some tok => .ok (((splitChars (fun c => c = '/') tok).map
      (fun row => row.flatMap expandChar)).flatten)

/-- The entries of the fixed character-to-class dictionary `piece_dict` of
`fen_to_array` (lines 24-36 of the source). -/
def pieceTable : List (Char × Nat) :=
  [('0', 0), ('P', 1), ('N', 2), ('B', 3), ('R', 4), ('Q', 5), ('K', 6),
   ('p', 7), ('n', 8), ('b', 9), ('r', 10), ('q', 11), ('k', 12)]

/-- Key lookup in an association table. -/
def lookupTable {α : Type} : List (Char × α) → Char → Option α
  | [], _ => none
  | (k, v) :: rest, c => if c = k then some v else lookupTable rest c

/-- The dictionary lookup `piece_dict[char]` of `fen_to_array`; `none`
models a `KeyError`. -/
def piece_dict (c : Char) : Option Nat := lookupTable pieceTable c

/-- The write loop of `fen_to_array` (lines 38-39 of the source): for the
`i`-th board-string character of class `v`, set slot `13*i + v` of the
vector to `1`.  A missing table entry is the `KeyError` of the source,
reported as `invalidPieceSymbol`. -/
def fillSquares : List Char → Nat → List Nat → Except PrepError (List Nat)
  | [], _, arr => .ok arr
  | c :: cs, i, arr =>
    match piece_dict c with
    | none => .error (.invalidPieceSymbol c)
    | some v => fillSquares cs (i + 1) (arr.set (13 * i + v) 1)

/-- Embedding of `fen_to_array` (lines 7-41 of the source): build the board
string, fail with `invalidBoardLength` unless it has exactly 64 characters,
then fill a zero-initialised 832-slot vector. -/
def fen_to_array (fen : String) : Except PrepError (List Nat) :=
  match boardString fen with
  | .error e => .error e
  | .ok bs =>
    if bs.length ≠ 64 then .error (.invalidBoardLength bs.length)
    else fillSquares bs 0 (List.replicate 832 0)

/-- The class indices of a board string, looked up left to right; the first
unknown character aborts with `invalidPieceSymbol`, exactly as the write
loop of `fen_to_array` would. -/
def classesOf : List Char → Except PrepError (List Nat)
  | [] => .ok []
  | c :: cs =>
    match piece_dict c with
    | none => .error (.invalidPieceSymbol c)
    | some v =>
      match classesOf cs with
      | .error e => .error e
      | .ok vs => .ok (v :: vs)

/-- The 13-slot indicator block for class `v`. -/
def oneHot13 (v : Nat) : List Nat :=
  (List.range 13).map (fun j => if j = v then 1 else 0)

lemma lookupTable_mem_values {α : Type} (t : List (Char × α)) (c : Char) (v : α)
    (h : lookupTable t c = some v) : v ∈ t.map Prod.snd := by
  induction t with
  | nil => exact Option.noConfusion h
  | cons kv rest ih =>
    obtain ⟨k, w⟩ := kv
    rw [lookupTable] at h
    by_cases hc : c = k
    · rw [if_pos hc] at h
      injection h with h
      simp [h]
    · rw [if_neg hc] at h
      simp [ih h]

lemma piece_dict_lt (c : Char) (v : Nat) (h : piece_dict c = some v) : v < 13 := by
  have hmem := lookupTable_mem_values pieceTable c v h
  simp only [pieceTable, List.map_cons, List.map_nil, List.mem_cons,
    List.not_mem_nil, or_false] at hmem
  omega

lemma set_append_right {α : Type} (xs ys : List α) (n : Nat) (a : α) :
    (xs ++ ys).set (xs.length + n) a = xs ++ ys.set n a := by
  rw [List.set_append, if_neg (by omega)]
  have h : xs.length + n - xs.length = n := by omega
  rw [h]

lemma set_append_left {α : Type} (xs ys : List α) (n : Nat) (h : n < xs.length) (a : α) :
    (xs ++ ys).set n a = xs.set n a ++ ys := by
  rw [List.set_append, if_pos h]

lemma replicate13_set (v : Nat) (h : v < 13) :
    (List.replicate 13 (0 : Nat)).set v 1 = oneHot13 v := by
  interval_cases v <;> decide

/-- The write loop on a vector whose first `13*i` slots are already filled
and whose remaining slots are zero produces the concatenation of the
indicator blocks of the character classes. -/
lemma fillSquares_spec (cs : List Char) (i : Nat) (done : List Nat)
    (hlen : done.length = 13 * i) :
    fillSquares cs i (done ++ List.replicate (13 * cs.length) 0)
      = (classesOf cs).map (fun vs => done ++ (vs.map oneHot13).flatten) := by
  induction cs generalizing i done with
  | nil =>
    simp [fillSquares, classesOf, Except.map]
  | cons c cs ih =>
    simp only [fillSquares, classesOf]
    cases hdict : piece_dict c with
    | none => simp [Except.map]
    | some v =>
      dsimp only
      have hv : v < 13 := piece_dict_lt c v hdict
      have hrep : List.replicate (13 * (c :: cs).length) (0 : Nat)
          = List.replicate 13 0 ++ List.replicate (13 * cs.length) 0 := by
        rw [← List.replicate_add]
        congr 1
        simp only [List.length_cons]
        ring
      have hset : (done ++ List.replicate (13 * (c :: cs).length) (0 : Nat)).set
            (13 * i + v) 1
          = (done ++ oneHot13 v) ++ List.replicate (13 * cs.length) 0 := by
        rw [hrep, ← hlen, set_append_right,
          set_append_left _ _ v (by simp [hv]), replicate13_set v hv, List.append_assoc]
      rw [hset, ih (i + 1) (done ++ oneHot13 v) (by simp [oneHot13]; omega)]
      cases hcl : classesOf cs with
      | error e => simp [Except.map]
      | ok vs => simp [Except.map]

lemma classesOf_ok (bs : List Char) (hall : ∀ c ∈ bs, (piece_dict c).isSome) :
    ∃ vs, classesOf bs = .ok vs ∧ vs.length = bs.length ∧ ∀ v ∈ vs, v < 13 := by
  induction bs with
  | nil => exact ⟨[], rfl, rfl, by simp⟩
  | cons c cs ih =>
    have hc : (piece_dict c).isSome := hall c (by simp)
    obtain ⟨v, hv⟩ := Option.isSome_iff_exists.mp hc
    obtain ⟨vs, hvs, hlen, hlt⟩ := ih (fun d hd => hall d (by simp [hd]))
    refine ⟨v :: vs, by simp [classesOf, hv, hvs], by simp [hlen], ?_⟩
    intro w hw
    rcases List.mem_cons.mp hw with h | h
    · exact h ▸ piece_dict_lt c v hv
    · exact hlt w h

lemma classesOf_err (bs : List Char) (hbad : ∃ c ∈ bs, piece_dict c = none) :
    ∃ d, piece_dict d = none ∧ classesOf bs = .error (.invalidPieceSymbol d) := by
  induction bs with
  | nil => simp at hbad
  | cons c cs ih =>
    cases hc : piece_dict c with
    | none => exact ⟨c, hc, by simp [classesOf, hc]⟩
    | some v =>
      have hbad' : ∃ d ∈ cs, piece_dict d = none := by
        obtain ⟨d, hd, hnone⟩ := hbad
        rcases List.mem_cons.mp hd with h | h
        · exact absurd hnone (by rw [← h] at hc; simp [hc])
        · exact ⟨d, h, hnone⟩
      obtain ⟨d, hd, hcs⟩ := ih hbad'
      exact ⟨d, hd, by simp [classesOf, hc, hcs]⟩

lemma classesOf_error_shape (bs : List Char) (e : PrepError)
    (h : classesOf bs = .error e) : ∃ d, e = .invalidPieceSymbol d := by
  induction bs with
  | nil => exact Except.noConfusion h
  | cons c cs ih =>
    rw [classesOf] at h
    cases hc : piece_dict c with
    | none =>
      rw [hc] at h
      injection h with h
      exact ⟨c, h.symm⟩
    | some v =>
      rw [hc] at h
      cases hcs : classesOf cs with
      | error e2 =>
        rw [hcs] at h
        injection h with h
        subst h
        exact ih hcs
      | ok vs => rw [hcs] at h; exact Except.noConfusion h

/-- `fen_to_array` on a 64-character board string is the flattening of the
per-square indicator blocks of the character classes. -/
lemma fen_to_array_eq (fen : String) (bs : List Char)
    (hbs : boardString fen = .ok bs) (hlen : bs.length = 64) :
    fen_to_array fen = (classesOf bs).map (fun vs => (vs.map oneHot13).flatten) := by
  unfold fen_to_array
  rw [hbs]
  dsimp only
  rw [if_neg (by omega)]
  have hspec := fillSquares_spec bs 0 [] rfl
  have h832 : 13 * bs.length = 832 := by rw [hlen]
  rw [h832] at hspec
  simp only [List.nil_append] at hspec
  exact hspec

lemma flatten_oneHot_length (vs : List Nat) :
    (vs.map oneHot13).flatten.length = 13 * vs.length := by
  induction vs with
  | nil => simp
  | cons v vs ih =>
    simp only [List.map_cons, List.flatten_cons, List.length_append, ih, List.length_cons]
    have : (oneHot13 v).length = 13 := by simp [oneHot13]
    omega

lemma flatten_oneHot_block (vs : List Nat) (i : Nat) (hi : i < vs.length) :
    ((vs.map oneHot13).flatten.drop (13 * i)).take 13 = oneHot13 (vs.getD i 0) := by
  induction vs generalizing i with
  | nil => simp at hi
  | cons v vs ih =>
    cases i with
    | zero =>
      simp only [List.map_cons, List.flatten_cons, Nat.mul_zero, List.drop_zero,
        List.getD_cons_zero]
      exact List.take_left' (by simp [oneHot13])
    | succ i =>
      have h13 : 13 * (i + 1) = (oneHot13 v).length + 13 * i := by
        simp [oneHot13]
        ring
      simp only [List.map_cons, List.flatten_cons, List.getD_cons_succ]
      rw [h13, List.drop_append]
      exact ih i (by simpa using hi)

lemma oneHot13_sum : ∀ v < 13, (oneHot13 v).sum = 1 := by decide

lemma flatten_oneHot_sum (vs : List Nat) (hall : ∀ v ∈ vs, v < 13) :
    (vs.map oneHot13).flatten.sum = vs.length := by
  induction vs with
  | nil => simp
  | cons v vs ih =>
    simp only [List.map_cons, List.flatten_cons, List.sum_append, List.length_cons]
    rw [oneHot13_sum v (hall v (by simp)), ih (fun w hw => hall w (by simp [hw]))]
    omega

/-- **C2.** For every FEN whose placement field expands to exactly 64
characters drawn from the known piece symbols, `fen_to_array` returns a
vector of length 832 in which each of the 64 blocks of 13 slots is a
one-hot indicator (exactly one slot 1, the rest 0), so every 13-slot block
sums to exactly 1 and the whole vector sums to exactly 64. -/
theorem C2_encode_one_hot (fen : String) (bs : List Char)
    (hbs : boardString fen = .ok bs) (hlen : bs.length = 64)
    (hall : ∀ c ∈ bs, (piece_dict c).isSome) :
    ∃ arr : List Nat, fen_to_array fen = .ok arr ∧ arr.length = 832 ∧
      (∀ i < 64, ∃ j < 13, (arr.drop (13 * i)).take 13
        = (List.range 13).map (fun k => if k = j then 1 else 0)) ∧
      (∀ i < 64, ((arr.drop (13 * i)).take 13).sum = 1) ∧
      arr.sum = 64 := by
  obtain ⟨vs, hvs, hvslen, hvslt⟩ := classesOf_ok bs hall
  have harr := fen_to_array_eq fen bs hbs hlen
  rw [hvs] at harr
  have hvl : vs.length = 64 := by rw [hvslen, hlen]
  refine ⟨(vs.map oneHot13).flatten, harr, ?_, ?_, ?_, ?_⟩
  · rw [flatten_oneHot_length, hvl]
  · intro i hi
    have hi' : i < vs.length := by omega
    refine ⟨vs.getD i 0, ?_, ?_⟩
    · refine hvslt _ ?_
      rw [List.getD_eq_getElem vs 0 hi']
      exact List.getElem_mem hi'
    · rw [flatten_oneHot_block vs i hi']
      rfl
  · intro i hi
    have hi' : i < vs.length := by omega
    rw [flatten_oneHot_block vs i hi']
    refine oneHot13_sum _ (hvslt _ ?_)
    rw [List.getD_eq_getElem vs 0 hi']
    exact List.getElem_mem hi'
  · rw [flatten_oneHot_sum vs hvslt, hvl]

/-- The expanded board string of the standard starting position. -/
def startBoardString : List Char :=
  "rnbqkbnrpppppppp".data ++ List.replicate 32 '0' ++ "PPPPPPPPRNBQKBNR".data

theorem C2_encode_one_hot_witness :
    ∃ arr : List Nat,
      fen_to_array "rnbqkbnr/pppppppp/8/8/8/8/PPPPPPPP/RNBQKBNR w KQkq - 0 1" = .ok arr ∧
      arr.length = 832 ∧
      (∀ i < 64, ∃ j < 13, (arr.drop (13 * i)).take 13
        = (List.range 13).map (fun k => if k = j then 1 else 0)) ∧
      (∀ i < 64, ((arr.drop (13 * i)).take 13).sum = 1) ∧
      arr.sum = 64 :=
  C2_encode_one_hot _ startBoardString (by decide) (by decide) (by decide)

/-- **C3.** For every FEN whose placement field expands to exactly 64
characters, if any of those characters is outside the 13 classes of the
fixed table, `fen_to_array` fails with an `invalidPieceSymbol` error carrying
a character that is indeed outside the table; no unknown character is
silently mapped to a class. -/
theorem C3_invalid_symbol (fen : String) (bs : List Char)
    (hbs : boardString fen = .ok bs) (hlen : bs.length = 64)
    (hbad : ∃ c ∈ bs, piece_dict c = none) :
    ∃ d, piece_dict d = none ∧
      fen_to_array fen = .error (.invalidPieceSymbol d) := by
  obtain ⟨d, hd, hcl⟩ := classesOf_err bs hbad
  refine ⟨d, hd, ?_⟩
  rw [fen_to_array_eq fen bs hbs hlen, hcl]
  rfl

/-- The expanded board string of the C3 witness FEN, whose last rank holds
the unknown symbol `'X'`. -/
def badBoardString : List Char :=
  "rnbqkbnrpppppppp".data ++ List.replicate 32 '0' ++ "PPPPPPPPRNBQKBNX".data

theorem C3_invalid_symbol_witness :
    ∃ d, piece_dict d = none ∧
      fen_to_array "rnbqkbnr/pppppppp/8/8/8/8/PPPPPPPP/RNBQKBNX w KQkq - 0 1"
        = .error (.invalidPieceSymbol d) :=
  C3_invalid_symbol _ badBoardString (by decide) (by decide)
    ⟨'X', by decide, by decide⟩

/-- **C5.** `fen_to_array` looks only at the first whitespace-delimited
token of the FEN: two FENs with the same placement token encode
identically, whatever their side-to-move, castling, en-passant and clock
fields are. -/
theorem C5_placement_only (fen1 fen2 : String) (t : List Char)
    (h1 : (pyWords fen1.data).head? = some t)
    (h2 : (pyWords fen2.data).head? = some t) :
    fen_to_array fen1 = fen_to_array fen2 := by
  unfold fen_to_array boardString
  rw [h1, h2]

theorem C5_placement_only_witness :
    fen_to_array "8/8/8/8/8/8/8/8 w - - 0 1"
      = fen_to_array "8/8/8/8/8/8/8/8 b KQkq e3 99 7" :=
  C5_placement_only _ _ "8/8/8/8/8/8/8/8".data (by decide) (by decide)

/-- **C7.** For every FEN whose placement field expands to a string of
length other than 64, `fen_to_array` fails with the `invalidBoardLength`
error (carrying that length); when the expansion has exactly 64 characters
that error is never raised. -/
theorem C7_board_length (fen : String) (bs : List Char)
    (hbs : boardString fen = .ok bs) :
    (bs.length ≠ 64 → fen_to_array fen = .error (.invalidBoardLength bs.length)) ∧
    (bs.length = 64 → ∀ n, fen_to_array fen ≠ .error (.invalidBoardLength n)) := by
  constructor
  · intro hne
    unfold fen_to_array
    rw [hbs]
    dsimp only
    rw [if_pos hne]
  · intro heq n
    rw [fen_to_array_eq fen bs hbs heq]
    cases hcl : classesOf bs with
    | error e =>
      obtain ⟨d, hd⟩ := classesOf_error_shape bs e hcl
      subst hd
      intro hc
      exact PrepError.noConfusion (Except.error.inj hc)
    | ok vs =>
      intro hc
      exact Except.noConfusion hc

/-- The expanded board string of the C7 witness FEN, one square short. -/
def shortBoardString : List Char :=
  "rnbqkbnrpppppppp".data ++ List.replicate 32 '0' ++ "PPPPPPPPRNBQKBN".data

theorem C7_board_length_witness :
    fen_to_array "rnbqkbnr/pppppppp/8/8/8/8/PPPPPPPP/RNBQKBN w KQkq - 0 1"
        = .error (.invalidBoardLength 63) ∧
    ∀ n, fen_to_array "rnbqkbnr/pppppppp/8/8/8/8/PPPPPPPP/RNBQKBNR w KQkq - 0 1"
        ≠ .error (.invalidBoardLength n) :=
  ⟨by
    have h := (C7_board_length "rnbqkbnr/pppppppp/8/8/8/8/PPPPPPPP/RNBQKBN w KQkq - 0 1"
      shortBoardString (by decide)).1 (by decide)
    have hl : shortBoardString.length = 63 := by decide
    rw [hl] at h
    exact h,
   (C7_board_length "rnbqkbnr/pppppppp/8/8/8/8/PPPPPPPP/RNBQKBNR w KQkq - 0 1"
      startBoardString (by decide)).2 (by decide)⟩

/-! ## The rules-engine capability

Modelled from the spec: the repository consumes python-chess as an external
rules engine ("given a position, produce legal moves; given a position and a
move, produce the successor position and its FEN"; "parse/validate a
move-notation string; equality/membership testing between move
identifiers").  The definitions below are an executable model of exactly
that capability for standard chess. -/

/-- Modelled from the spec: the colour of a side. -/
inductive Color where
  | white : Color
  | black : Color
deriving DecidableEq, Repr

/-- The side that moves next after `c`. -/
def Color.other : Color → Color
  | .white => .black
  | .black => .white

/-- Modelled from the spec: the six chess piece types. -/
inductive PieceKind where
  | pawn : PieceKind
  | knight : PieceKind
  | bishop : PieceKind
  | rook : PieceKind
  | queen : PieceKind
  | king : PieceKind
deriving DecidableEq, Repr

/-- A coloured piece. -/
structure Piece where
  color : Color
  kind : PieceKind
deriving DecidableEq, Repr

/-- Modelled from the spec: a move identifier of the rules engine — source
square, target square, optional promotion piece, and optional drop piece
(present only for the variant drop notation the engine's parser accepts).
Squares are numbered 0 = a1, 1 = b1, …, 63 = h8. -/
structure Move where
  fromSq : Nat
  toSq : Nat
  promotion : Option PieceKind
  dropPiece : Option PieceKind
deriving DecidableEq, Repr

/-- Modelled from the spec: a chess position — the piece placement (a map
from square numbers to optional pieces), side to move, the four castling
rights, the en-passant target square and the two move counters a FEN
carries. -/
structure Position where
  pieces : Nat → Option Piece
  turn : Color
  castleWK : Bool
  castleWQ : Bool
  castleBK : Bool
  castleBQ : Bool
  epSquare : Option Nat
  halfmove : Nat
  fullmove : Nat

def fileOf (sq : Nat) : Nat := sq % 8

def rankOf (sq : Nat) : Nat := sq / 8

/-- Move a square by a file/rank offset, `none` when it leaves the board. -/
def shift (sq : Nat) (df dr : Int) : Option Nat :=
  let f : Int := (fileOf sq : Int) + df
  let r : Int := (rankOf sq : Int) + dr
  if 0 ≤ f ∧ f ≤ 7 ∧ 0 ≤ r ∧ r ≤ 7 then some ((r * 8 + f).toNat) else none

def knightOffsets : List (Int × Int) :=
  [(1, 2), (2, 1), (2, -1), (1, -2), (-1, -2), (-2, -1), (-2, 1), (-1, 2)]

def kingOffsets : List (Int × Int) :=
  [(1, 0), (1, 1), (0, 1), (-1, 1), (-1, 0), (-1, -1), (0, -1), (1, -1)]

def rookDirs : List (Int × Int) := [(1, 0), (-1, 0), (0, 1), (0, -1)]

def bishopDirs : List (Int × Int) := [(1, 1), (1, -1), (-1, 1), (-1, -1)]

/-- The squares a sliding piece of colour `c` on `sq` can go to along one
direction: empty squares until the first occupied one, which is included
exactly when it holds an enemy piece.  The fuel argument bounds the walk
by the board diameter. -/
def rayTargets (ps : Nat → Option Piece) (c : Color) (sq : Nat) (df dr : Int) :
    Nat → List Nat
  | 0 => []
  | fuel + 1 =>
    match shift sq df dr with
    | none => []
    | some t =>
      match ps t with
      | none => t :: rayTargets ps c t df dr fuel
      | some p => if p.color = c then [] else [t]

/-- The first piece met walking from `sq` in one direction. -/
def firstOnRay (ps : Nat → Option Piece) (sq : Nat) (df dr : Int) :
    Nat → Option Piece
  | 0 => none
  | fuel + 1 =>
    match shift sq df dr with
    | none => none
    | some t =>
      match ps t with
      | none => firstOnRay ps t df dr fuel
      | some p => some p

/-- Offsets at which a pawn of colour `c` attacking a given square sits. -/
def pawnAttackFrom (c : Color) : List (Int × Int) :=
  match c with
  | .white => [(-1, -1), (1, -1)]
  | .black => [(-1, 1), (1, 1)]

/-- Is `sq` attacked by any piece of colour `c`? -/
def isAttacked (ps : Nat → Option Piece) (c : Color) (sq : Nat) : Bool :=
  ((pawnAttackFrom c).any fun d =>
    match shift sq d.1 d.2 with
    | none => false
    | some t => decide (ps t = some ⟨c, PieceKind.pawn⟩))
  || (knightOffsets.any fun d =>
    match shift sq d.1 d.2 with
    | none => false
    | some t => decide (ps t = some ⟨c, PieceKind.knight⟩))
  || (kingOffsets.any fun d =>
    match shift sq d.1 d.2 with
    | none => false
    | some t => decide (ps t = some ⟨c, PieceKind.king⟩))
  || (rookDirs.any fun d =>
    match firstOnRay ps sq d.1 d.2 8 with
    | none => false
    | some p => decide (p.color = c ∧ (p.kind = PieceKind.rook ∨ p.kind = PieceKind.queen)))
  || (bishopDirs.any fun d =>
    match firstOnRay ps sq d.1 d.2 8 with
    | none => false
    | some p => decide (p.color = c ∧ (p.kind = PieceKind.bishop ∨ p.kind = PieceKind.queen)))

def mkMove (a b : Nat) : Move := ⟨a, b, none, none⟩

def promoKinds : List PieceKind := [.queen, .rook, .bishop, .knight]

def lastRank (c : Color) : Nat := match c with | .white => 7 | .black => 0

def pawnStartRank (c : Color) : Nat := match c with | .white => 1 | .black => 6

def pawnStep (c : Color) : Int := match c with | .white => 1 | .black => -1

/-- A pawn arrival, expanded into the four promotions on the last rank. -/
def pawnMovesFromTo (c : Color) (a b : Nat) : List Move :=
  if rankOf b = lastRank c then promoKinds.map (fun k => ⟨a, b, some k, none⟩)
  else [mkMove a b]

/-- Pseudo-legal pawn moves from `s`: single push, double push from the
start rank, diagonal captures, and the en-passant capture to the recorded
en-passant square. -/
def pawnMoves (pos : Position) (s : Nat) : List Move :=
  let c := pos.turn
  let dir := pawnStep c
  let pushes :=
    match shift s 0 dir with
    | none => []
    | some t1 =>
      if pos.pieces t1 = none then
        pawnMovesFromTo c s t1 ++
          (if rankOf s = pawnStartRank c then
            match shift t1 0 dir with
            | none => []
            | some t2 => if pos.pieces t2 = none then [mkMove s t2] else []
          else [])
      else []
  let caps := [(-1 : Int), 1].flatMap fun df =>
    match shift s df dir with
    | none => []
    | some t =>
      match pos.pieces t with
      | some p => if p.color = c then [] else pawnMovesFromTo c s t
      | none => if pos.epSquare = some t then [mkMove s t] else []
  pushes ++ caps

/-- Pseudo-legal knight/king moves from `s` for a fixed offset list. -/
def leaperMoves (pos : Position) (s : Nat) (offs : List (Int × Int)) : List Move :=
  offs.flatMap fun d =>
    match shift s d.1 d.2 with
    | none => []
    | some t =>
      match pos.pieces t with
      | none => [mkMove s t]
      | some p => if p.color = pos.turn then [] else [mkMove s t]

/-- Pseudo-legal sliding moves from `s` along the given directions. -/
def sliderMoves (pos : Position) (s : Nat) (dirs : List (Int × Int)) : List Move :=
  dirs.flatMap fun d => (rayTargets pos.pieces pos.turn s d.1 d.2 8).map (mkMove s)

/-- Castling moves of the side to move: the corresponding right is held,
king and rook stand on their home squares, the squares between them are
empty, and neither the king's square nor the two squares it crosses are
attacked.  The move is written as the two-square king move. -/
def castleMoves (pos : Position) : List Move :=
  let c := pos.turn
  let r : Nat := match c with | .white => 0 | .black => 7
  let e := r * 8 + 4
  let enemy := c.other
  let kingside : Bool :=
    (match c with | .white => pos.castleWK | .black => pos.castleBK)
    && decide (pos.pieces e = some ⟨c, PieceKind.king⟩)
    && decide (pos.pieces (r * 8 + 7) = some ⟨c, PieceKind.rook⟩)
    && decide (pos.pieces (r * 8 + 5) = none)
    && decide (pos.pieces (r * 8 + 6) = none)
    && !isAttacked pos.pieces enemy e
    && !isAttacked pos.pieces enemy (r * 8 + 5)
    && !isAttacked pos.pieces enemy (r * 8 + 6)
  let queenside : Bool :=
    (match c with | .white => pos.castleWQ | .black => pos.castleBQ)
    && decide (pos.pieces e = some ⟨c, PieceKind.king⟩)
    && decide (pos.pieces (r * 8 + 0) = some ⟨c, PieceKind.rook⟩)
    && decide (pos.pieces (r * 8 + 1) = none)
    && decide (pos.pieces (r * 8 + 2) = none)
    && decide (pos.pieces (r * 8 + 3) = none)
    && !isAttacked pos.pieces enemy e
    && !isAttacked pos.pieces enemy (r * 8 + 3)
    && !isAttacked pos.pieces enemy (r * 8 + 2)
  (if kingside then [mkMove e (r * 8 + 6)] else [])
    ++ (if queenside then [mkMove e (r * 8 + 2)] else [])

/-- Pseudo-legal moves of the piece on square `s`, if it belongs to the
side to move. -/
def pieceMoves (pos : Position) (s : Nat) : List Move :=
  match pos.pieces s with
  | none => []
  | some p =>
    if p.color ≠ pos.turn then []
    else
      match p.kind with
      | .pawn => pawnMoves pos s
      | .knight => leaperMoves pos s knightOffsets
      | .bishop => sliderMoves pos s bishopDirs
      | .rook => sliderMoves pos s rookDirs
      | .queen => sliderMoves pos s (rookDirs ++ bishopDirs)
      | .king => leaperMoves pos s kingOffsets

/-- All pseudo-legal moves of the side to move. -/
def pseudoMoves (pos : Position) : List Move :=
  ((List.range 64).map (pieceMoves pos)).flatten ++ castleMoves pos

/-- Point update of a placement map. -/
def setSq (ps : Nat → Option Piece) (sq : Nat) (v : Option Piece) :
    Nat → Option Piece :=
  fun j => if j = sq then v else ps j

/-- Apply a (pseudo-)legal board move: move the piece (promoting if the
move says so), remove the en-passant victim, move the rook of a castling
king move, set the new en-passant square after a double pawn push, update
castling rights, the halfmove clock and the fullmove number, and give the
turn to the other side. -/
def applyMove (pos : Position) (m : Move) : Position :=
  let c := pos.turn
  let movedIsPawn : Bool := decide (pos.pieces m.fromSq = some ⟨c, PieceKind.pawn⟩)
  let movedIsKing : Bool := decide (pos.pieces m.fromSq = some ⟨c, PieceKind.king⟩)
  let isCapture : Bool := decide (pos.pieces m.toSq ≠ none)
  let isEp : Bool := movedIsPawn && decide (pos.epSquare = some m.toSq)
      && decide (fileOf m.toSq ≠ fileOf m.fromSq) && decide (pos.pieces m.toSq = none)
  let placed : Option Piece :=
    match m.promotion with
    | some k => some ⟨c, k⟩
    | none => pos.pieces m.fromSq
  let ps1 := setSq (setSq pos.pieces m.fromSq none) m.toSq placed
  let ps2 := if isEp then setSq ps1 (8 * rankOf m.fromSq + fileOf m.toSq) none else ps1
  let ps3 :=
    if movedIsKing && decide (fileOf m.fromSq = 4) && decide (fileOf m.toSq = 6) then
      setSq (setSq ps2 (8 * rankOf m.fromSq + 7) none) (8 * rankOf m.fromSq + 5)
        (some ⟨c, PieceKind.rook⟩)
    else if movedIsKing && decide (fileOf m.fromSq = 4) && decide (fileOf m.toSq = 2) then
      setSq (setSq ps2 (8 * rankOf m.fromSq + 0) none) (8 * rankOf m.fromSq + 3)
        (some ⟨c, PieceKind.rook⟩)
    else ps2
  let newEp : Option Nat :=
    if movedIsPawn && decide (rankOf m.toSq = rankOf m.fromSq + 2) then some (m.fromSq + 8)
    else if movedIsPawn && decide (rankOf m.fromSq = rankOf m.toSq + 2) then some (m.fromSq - 8)
    else none
  { pieces := ps3
    turn := c.other
    castleWK := pos.castleWK && !(decide (m.fromSq = 7) || decide (m.toSq = 7))
      && !(movedIsKing && decide (c = Color.white))
    castleWQ := pos.castleWQ && !(decide (m.fromSq = 0) || decide (m.toSq = 0))
      && !(movedIsKing && decide (c = Color.white))
    castleBK := pos.castleBK && !(decide (m.fromSq = 63) || decide (m.toSq = 63))
      && !(movedIsKing && decide (c = Color.black))
    castleBQ := pos.castleBQ && !(decide (m.fromSq = 56) || decide (m.toSq = 56))
      && !(movedIsKing && decide (c = Color.black))
    epSquare := newEp
    halfmove := if movedIsPawn || isCapture then 0 else pos.halfmove + 1
    fullmove := if c = Color.black then pos.fullmove + 1 else pos.fullmove }

/-- The square of the king of colour `c`. -/
def kingSquare (ps : Nat → Option Piece) (c : Color) : Option Nat :=
  (List.range 64).find? (fun s => decide (ps s = some ⟨c, PieceKind.king⟩))

/-- A pseudo-legal move is legal when the mover's king is not attacked
afterwards. -/
def isLegal (pos : Position) (m : Move) : Bool :=
  let nxt := applyMove pos m
  match kingSquare nxt.pieces pos.turn with
  | none => true
  | some k => !isAttacked nxt.pieces pos.turn.other k

/-- Modelled from the spec: "given a position, produce legal moves" — the
legal moves of the side to move. -/
def legalMoves (pos : Position) : List Move :=
  (pseudoMoves pos).filter (isLegal pos)

/-- The FEN letter of a piece: uppercase for White, lowercase for Black. -/
def pieceChar (p : Piece) : Char :=
  match p.color, p.kind with
  | .white, .pawn => 'P'
  | .white, .knight => 'N'
  | .white, .bishop => 'B'
  | .white, .rook => 'R'
  | .white, .queen => 'Q'
  | .white, .king => 'K'
  | .black, .pawn => 'p'
  | .black, .knight => 'n'
  | .black, .bishop => 'b'
  | .black, .rook => 'r'
  | .black, .queen => 'q'
  | .black, .king => 'k'

/-- The board-string symbol of a square content: the empty marker `'0'` or
the piece letter. -/
def symbolChar : Option Piece → Char
  | none => '0'
  | some p => pieceChar p

/-- The single FEN digit for a run of `n` empty squares, `1 ≤ n ≤ 8`;
an empty list for `n = 0` (no run to flush). -/
def digitChar : Nat → List Char
  | 1 => ['1']
  | 2 => ['2']
  | 3 => ['3']
  | 4 => ['4']
  | 5 => ['5']
  | 6 => ['6']
  | 7 => ['7']
  | 8 => ['8']
  | _ => []

/-- Run-length encode one rank of squares into FEN notation; `n` counts the
empty squares already seen and not yet flushed. -/
def encodeRankAux : List (Option Piece) → Nat → List Char
  | [], n => digitChar n
  | none :: rest, n => encodeRankAux rest (n + 1)
  | some p :: rest, n => digitChar n ++ pieceChar p :: encodeRankAux rest 0

/-- The squares of rank `r` (0-based) from file a to file h. -/
def rankSquares (ps : Nat → Option Piece) (r : Nat) : List (Option Piece) :=
  (List.range 8).map (fun f => ps (8 * r + f))

/-- Join the rank strings with `'/'` separators. -/
def joinRanks : List (List Char) → List Char
  | [] => []
  | [r] => r
  | r :: rest => r ++ '/' :: joinRanks rest

/-- The ranks of the board in FEN order: rank 8 first, rank 1 last. -/
def fenRanks (ps : Nat → Option Piece) : List (List (Option Piece)) :=
  (List.range 8).reverse.map (rankSquares ps)

/-- The FEN placement field of a placement map. -/
def placementChars (ps : Nat → Option Piece) : List Char :=
  joinRanks ((fenRanks ps).map (fun sqs => encodeRankAux sqs 0))

def turnChar (c : Color) : Char := match c with | .white => 'w' | .black => 'b'

/-- The FEN castling field: the letters of the held rights, `-` if none. -/
def castlingChars (pos : Position) : List Char :=
  let s := (if pos.castleWK then ['K'] else []) ++ (if pos.castleWQ then ['Q'] else [])
    ++ (if pos.castleBK then ['k'] else []) ++ (if pos.castleBQ then ['q'] else [])
  if s.isEmpty then ['-'] else s

def fileChar : Nat → Char
  | 0 => 'a'
  | 1 => 'b'
  | 2 => 'c'
  | 3 => 'd'
  | 4 => 'e'
  | 5 => 'f'
  | 6 => 'g'
  | _ => 'h'

def rankChar : Nat → Char
  | 0 => '1'
  | 1 => '2'
  | 2 => '3'
  | 3 => '4'
  | 4 => '5'
  | 5 => '6'
  | 6 => '7'
  | _ => '8'

def squareChars (sq : Nat) : List Char := [fileChar (fileOf sq), rankChar (rankOf sq)]

/-- Is `m` an en-passant capture in `pos`?  (A pawn of the side to move
moving diagonally to the recorded empty en-passant square.) -/
def isEpCapture (pos : Position) (m : Move) : Bool :=
  match pos.pieces m.fromSq with
  | none => false
  | some p =>
    decide (p = ⟨pos.turn, PieceKind.pawn⟩) && decide (pos.epSquare = some m.toSq)
      && decide (pos.pieces m.toSq = none)
      && (decide (m.toSq = m.fromSq + 7) || decide (m.toSq = m.fromSq + 9)
          || decide (m.fromSq = m.toSq + 7) || decide (m.fromSq = m.toSq + 9))

/-- The FEN en-passant field.  Like the engine's default FEN printer, the
square is shown only when an en-passant capture is actually legal. -/
def epChars (pos : Position) : List Char :=
  match pos.epSquare with
  | none => ['-']
  | some sq => if (legalMoves pos).any (isEpCapture pos) then squareChars sq else ['-']

/-- Decimal digits of a move counter. -/
def natChars (n : Nat) : List Char := Nat.toDigits 10 n

/-- The six space-separated FEN fields of a position. -/
def fenChars (pos : Position) : List Char :=
  placementChars pos.pieces ++ ' ' :: turnChar pos.turn :: ' ' :: castlingChars pos
    ++ ' ' :: epChars pos ++ ' ' :: natChars pos.halfmove ++ ' ' :: natChars pos.fullmove

/-- Modelled from the spec: "given a position …, produce … its FEN" —
the engine's `board.fen()`. -/
def fenOfPos (pos : Position) : String := String.mk (fenChars pos)

/-- FEN piece letters. -/
def pieceCharTable : List (Char × Piece) :=
  [('P', ⟨.white, .pawn⟩), ('N', ⟨.white, .knight⟩), ('B', ⟨.white, .bishop⟩),
   ('R', ⟨.white, .rook⟩), ('Q', ⟨.white, .queen⟩), ('K', ⟨.white, .king⟩),
   ('p', ⟨.black, .pawn⟩), ('n', ⟨.black, .knight⟩), ('b', ⟨.black, .bishop⟩),
   ('r', ⟨.black, .rook⟩), ('q', ⟨.black, .queen⟩), ('k', ⟨.black, .king⟩)]

def charPiece (c : Char) : Option Piece := lookupTable pieceCharTable c

/-- FEN empty-run digits `'1'`-`'8'`. -/
def digitVal (c : Char) : Option Nat :=
  lookupTable [('1', 1), ('2', 2), ('3', 3), ('4', 4),
               ('5', 5), ('6', 6), ('7', 7), ('8', 8)] c

/-- Parse one FEN rank into its squares; rejects unknown characters and two
consecutive digits, as the engine's FEN parser does. -/
def parseRow : List Char → Bool → Option (List (Option Piece))
  | [], _ => some []
  | c :: rest, prevDigit =>
    match digitVal c with
    | some n =>
      if prevDigit then none
      else (parseRow rest true).map (fun sqs => List.replicate n none ++ sqs)
    | none =>
      match charPiece c with
      | some p => (parseRow rest false).map (fun sqs => some p :: sqs)
      | none => none

/-- Parse a FEN placement field: exactly 8 `'/'`-separated ranks of exactly
8 squares each, rank 8 first.  The result maps square numbers (0 = a1) to
their content. -/
def parsePlacement (tok : List Char) : Option (Nat → Option Piece) :=
  let rows := splitChars (fun c => c = '/') tok
  if rows.length = 8 then
    match rows.mapM (fun row => parseRow row false) with
    | none => none
    | some rws =>
      if rws.all (fun rw => rw.length = 8) then
        some (fun sq => rws.flatten.getD ((7 - rankOf sq) * 8 + fileOf sq) none)
      else none
  else none

def parseTurn : List Char → Option Color
  | ['w'] => some .white
  | ['b'] => some .black
  | _ => none

/-- Parse the FEN castling field. -/
def parseCastling (tok : List Char) : Option (Bool × Bool × Bool × Bool) :=
  if tok = ['-'] then some (false, false, false, false)
  else if tok ≠ [] ∧ tok.all (fun c => ['K', 'Q', 'k', 'q'].contains c) then
    some (tok.contains 'K', tok.contains 'Q', tok.contains 'k', tok.contains 'q')
  else none

/-- Parse a two-character square name `a1`..`h8`. -/
def parseSquareName : List Char → Option Nat
  | [f, r] =>
    if 'a' ≤ f ∧ f ≤ 'h' ∧ '1' ≤ r ∧ r ≤ '8' then
      some (8 * (r.toNat - '1'.toNat) + (f.toNat - 'a'.toNat))
    else none
  | _ => none

/-- Parse the FEN en-passant field. -/
def parseEp (tok : List Char) : Option (Option Nat) :=
  if tok = ['-'] then some none
  else
    match parseSquareName tok with
    | some sq => some (some sq)
    | none => none

def parseNatAux : List Char → Nat → Option Nat
  | [], acc => some acc
  | c :: rest, acc =>
    if '0' ≤ c ∧ c ≤ '9' then parseNatAux rest (acc * 10 + (c.toNat - '0'.toNat))
    else none

/-- Parse a decimal move counter. -/
def parseNat (tok : List Char) : Option Nat :=
  if tok = [] then none else parseNatAux tok 0

/-- Modelled from the spec: the engine's FEN constructor `chess.Board(fen)`;
`none` models the `ValueError` a malformed FEN raises. -/
def parseFen (fen : String) : Option Position :=
  match pyWords fen.data with
  | [pl, t, ca, ep, hm, fm] =>
    match parsePlacement pl, parseTurn t, parseCastling ca, parseEp ep,
        parseNat hm, parseNat fm with
    | some ps, some c, some (wk, wq, bk, bq), some eps, some h, some f =>
      some ⟨ps, c, wk, wq, bk, bq, eps, h, f⟩
    | _, _, _, _, _, _ => none
  | _ => none

/-- UCI promotion letters (the engine indexes its full piece-symbol list,
so a pawn "promotion" letter parses too). -/
def promoKindOf (c : Char) : Option PieceKind :=
  match c with
  | 'p' => some .pawn
  | 'n' => some .knight
  | 'b' => some .bishop
  | 'r' => some .rook
  | 'q' => some .queen
  | 'k' => some .king
  | _ => none

/-- Modelled from the spec: the engine's `chess.Move.from_uci` — `"0000"`
is the null move, `P@sq` a drop, otherwise two square names with an
optional promotion letter; the two squares must differ; everything else is
unparseable (`none` models the `InvalidMoveError`). -/
def parseUciChars : List Char → Option Move
  | ['0', '0', '0', '0'] => some ⟨0, 0, none, none⟩
  | [p, '@', f, r] =>
    match promoKindOf p.toLower, parseSquareName [f, r] with
    | some k, some sq => some ⟨sq, sq, none, some k⟩
    | _, _ => none
  | [a, b, c, d] =>
    match parseSquareName [a, b], parseSquareName [c, d] with
    | some s1, some s2 => if s1 = s2 then none else some ⟨s1, s2, none, none⟩
    | _, _ => none
  | [a, b, c, d, e] =>
    match parseSquareName [a, b], parseSquareName [c, d], promoKindOf e with
    | some s1, some s2, some k => if s1 = s2 then none else some ⟨s1, s2, some k, none⟩
    | _, _, _ => none
  | _ => none

def parseUci (s : String) : Option Move := parseUciChars s.data

/-- Modelled from the spec: the engine's `board.push_uci` — parse the UCI
string (`invalidMove` on failure), require the move to be legal
(`illegalMove` otherwise), and apply it. -/
def push_uci (pos : Position) (s : String) : Except PrepError Position :=
  match parseUci s with
  | none => .error (.invalidMove s)
  | some m => if m ∈ legalMoves pos then .ok (applyMove pos m) else .error (.illegalMove s)

/-- A raw puzzle record: the `FEN` and `Moves` columns of the source data
frame that `puzzle_cleaning` and `single_move` read. -/
structure PuzzleRecord where
  FEN : String
  Moves : String
deriving DecidableEq, Repr

/-- A cleaned record as produced by `puzzle_cleaning`: the advanced `FEN`
and the `target_move` column that `possible_moves` reads. -/
structure CleanRecord where
  FEN : String
  target_move : String
deriving DecidableEq, Repr

/-- Embedding of `single_move` (lines 55-61 of the source): build the board
from the record's FEN (`malformedFen` when it does not parse), push the
first whitespace-separated move of the `Moves` column (an `IndexError` when
there is none; `invalidMove` / `illegalMove` as `push_uci` decides) and
return the resulting position's FEN. -/
def single_move (r : PuzzleRecord) : Except PrepError String :=
  match parseFen r.FEN with
  | none => .error .malformedFen
  | some pos =>
    match (pyWords r.Moves.data).head? with
    | none => .error .indexError
    | some w0 =>
      match push_uci pos (String.mk w0) with
      | .error e => .error e
      | .ok pos2 => .ok (fenOfPos pos2)

/-- The per-record action of `puzzle_cleaning` (lines 44-53 of the source),
the spec's `advance`: the new `FEN` entry is `single_move` of the record
and the `target_move` entry is `Moves.split()[1]`, taken verbatim and not
validated in any way. -/
def advance (r : PuzzleRecord) : Except PrepError CleanRecord :=
  match single_move r with
  | .error e => .error e
  | .ok adv =>
    match (pyWords r.Moves.data)[1]? with
    | none => .error .indexError
    | some w1 => .ok ⟨adv, String.mk w1⟩

/-- The loop of `possible_moves` (lines 76-81 of the source): for each
legal move, push it, read the successor FEN, compare the move against the
freshly parsed target (`invalidMove` when the target does not parse — the
comparison is evaluated before the encoder call, as in the source), and
encode the successor position. -/
def expandLoop (pos : Position) (target : String) :
    List Move → Except PrepError (List (List Nat × Nat))
  | [] => .ok []
  | m :: ms =>
    let candidate_fen := fenOfPos (applyMove pos m)
    match parseUci target with
    | none => .error (.invalidMove target)
    | some tm =>
      match fen_to_array candidate_fen with
      | .error e => .error e
      | .ok arr =>
        match expandLoop pos target ms with
        | .error e => .error e
        | .ok rest => .ok ((arr, if m = tm then 1 else 0) :: rest)

/-- Embedding of `possible_moves` (lines 63-82 of the source): one output
row per legal move of the record's position, each row holding the encoded
successor position and a 1/0 label marking whether the move is the
record's target move. -/
def possible_moves (r : CleanRecord) : Except PrepError (List (List Nat × Nat)) :=
  match parseFen r.FEN with
  | none => .error .malformedFen
  | some pos => expandLoop pos r.target_move (legalMoves pos)

/-- One line of the converter's output file: the header line or a data row
holding an encoded position and its label. -/
inductive CsvLine where
  | header : CsvLine
  | row : List Nat → Nat → CsvLine
deriving DecidableEq, Repr

/-- Collect elements into batches: `acc` is the current batch (reversed),
`k` its remaining capacity; a full batch is flushed when another element
arrives, and the final partial batch is flushed at the end. -/
def chunksGo {α : Type} : List α → List α → Nat → List (List α)
  | [], acc, _ => if acc.isEmpty then [] else [acc.reverse]
  | x :: xs, acc, k =>
    match k with
    | 0 => acc.reverse :: chunksGo xs [x] 99
    | k + 1 => chunksGo xs (x :: acc) k

/-- Batches of 100 records, as `pd.read_csv(..., chunksize=100)` yields
them; an empty source yields no batches. -/
def chunks100 {α : Type} (l : List α) : List (List α) := chunksGo l [] 100

/-- `chunk_df.apply(possible_moves, axis=1)` (line 96 of the source): run
`possible_moves` on every record of the chunk, stopping at the first
record whose processing raises. -/
def applyAll : List CleanRecord → Except PrepError (List (List (List Nat × Nat)))
  | [] => .ok []
  | r :: rs =>
    match possible_moves r with
    | .error e => .error e
    | .ok rows =>
      match applyAll rs with
      | .error e => .error e
      | .ok rest => .ok (rows :: rest)

/-- One batch of the converter (lines 96-97 of the source): run
`possible_moves` on every record of the chunk and flatten the per-record
rows, as `pd.concat` does. -/
def convertChunk (rs : List CleanRecord) : Except PrepError (List CsvLine) :=
  match applyAll rs with
  | .error e => .error e
  | .ok dfs => .ok (dfs.flatten.map (fun p => .row p.1 p.2))

/-- The chunk loop of `make_converted_file` (lines 93-98 of the source):
chunk `i` contributes its data rows, preceded by the header exactly when
`i = 0` (the first chunk opens the file in write mode with a header, later
chunks append without one). -/
def writeChunks : Nat → List (List CleanRecord) → Except PrepError (List CsvLine)
  | _, [] => .ok []
  | i, ch :: rest =>
    match convertChunk ch with
    | .error e => .error e
    | .ok rows =>
      match writeChunks (i + 1) rest with
      | .error e => .error e
      | .ok tail => .ok ((if i = 0 then [CsvLine.header] else []) ++ rows ++ tail)

/-- Embedding of `make_converted_file` (lines 84-98 of the source) with the
default output columns: process the cleaned record stream in batches of
100 and concatenate what each batch writes. -/
def make_converted_file (records : List CleanRecord) : Except PrepError (List CsvLine) :=
  writeChunks 0 (chunks100 records)

lemma digitChar_expand : ∀ n ≤ 8, (digitChar n).flatMap expandChar = List.replicate n '0' := by
  decide

lemma pieceChar_expand (p : Piece) : expandChar (pieceChar p) = [pieceChar p] := by
  rcases p with ⟨c, k⟩
  cases c <;> cases k <;> decide

/-- Expanding the run-length encoding of a rank with `n` pending empty
squares gives `n` empty markers followed by the symbols of the squares. -/
lemma encodeRankAux_expand (sqs : List (Option Piece)) (n : Nat)
    (h : n + sqs.length ≤ 8) :
    (encodeRankAux sqs n).flatMap expandChar
      = List.replicate n '0' ++ sqs.map symbolChar := by
  induction sqs generalizing n with
  | nil =>
    simp only [encodeRankAux, List.map_nil, List.append_nil]
    exact digitChar_expand n (by simpa using h)
  | cons x rest ih =>
    cases x with
    | none =>
      rw [encodeRankAux, ih (n + 1) (by simp at h ⊢; omega), List.replicate_succ']
      simp [symbolChar]
    | some p =>
      rw [encodeRankAux, List.flatMap_append, List.flatMap_cons,
        digitChar_expand n (by simp at h; omega), pieceChar_expand,
        ih 0 (by simp at h; omega)]
      simp [symbolChar]

lemma digitChar_clean : ∀ n ≤ 8, ∀ c ∈ digitChar n, c ≠ '/' ∧ c.isWhitespace = false := by
  decide

lemma pieceChar_clean (p : Piece) :
    pieceChar p ≠ '/' ∧ (pieceChar p).isWhitespace = false := by
  rcases p with ⟨c, k⟩
  cases c <;> cases k <;> decide

/-- Rank encodings contain no `'/'` and no whitespace. -/
lemma encodeRankAux_clean (sqs : List (Option Piece)) (n : Nat)
    (h : n + sqs.length ≤ 8) :
    ∀ c ∈ encodeRankAux sqs n, c ≠ '/' ∧ c.isWhitespace = false := by
  induction sqs generalizing n with
  | nil =>
    simpa [encodeRankAux] using digitChar_clean n (by simpa using h)
  | cons x rest ih =>
    cases x with
    | none =>
      rw [encodeRankAux]
      exact ih (n + 1) (by simp at h ⊢; omega)
    | some p =>
      rw [encodeRankAux]
      intro c hc
      rcases List.mem_append.mp hc with h1 | h2
      · exact digitChar_clean n (by simp at h; omega) c h1
      · rcases List.mem_cons.mp h2 with h3 | h4
        · exact h3 ▸ pieceChar_clean p
        · exact ih 0 (by simp at h; omega) c h4

lemma splitChars_ne_nil (p : Char → Bool) (l : List Char) : splitChars p l ≠ [] := by
  cases l with
  | nil => simp [splitChars]
  | cons c cs =>
    rw [splitChars]
    cases h : splitChars p cs with
    | nil =>
      dsimp only
      split_ifs <;> simp
    | cons w ws =>
      dsimp only
      split_ifs <;> simp

lemma splitChars_single (p : Char → Bool) (a : List Char)
    (ha : ∀ c ∈ a, p c = false) : splitChars p a = [a] := by
  induction a with
  | nil => rfl
  | cons x a ih =>
    have hx : p x = false := ha x (by simp)
    rw [splitChars, ih (fun c hc => ha c (by simp [hc]))]
    dsimp only
    rw [if_neg (by simp [hx])]

lemma splitChars_append_clean (p : Char → Bool) (a : List Char)
    (ha : ∀ c ∈ a, p c = false) (c : Char) (hc : p c = true) (rest : List Char) :
    splitChars p (a ++ c :: rest) = a :: splitChars p rest := by
  induction a with
  | nil =>
    rw [List.nil_append, splitChars]
    cases h : splitChars p rest with
    | nil => exact absurd h (splitChars_ne_nil p rest)
    | cons w ws =>
      dsimp only
      rw [if_pos hc]
  | cons x a ih =>
    have hx : p x = false := ha x (by simp)
    rw [List.cons_append, splitChars, ih (fun d hd => ha d (by simp [hd]))]
    dsimp only
    rw [if_neg (by simp [hx])]

/-- The first Python word of `a ++ ' ' :: rest` is `a` when `a` is nonempty
and whitespace-free. -/
lemma pyWords_head (a rest : List Char) (ha : ∀ c ∈ a, c.isWhitespace = false)
    (hne : a ≠ []) : (pyWords (a ++ ' ' :: rest)).head? = some a := by
  unfold pyWords
  rw [splitChars_append_clean _ a ha ' ' (by decide) rest]
  rw [List.filter_cons, if_pos (by simpa [List.isEmpty_eq_false] using hne)]
  exact List.head?_cons

lemma joinRanks_cons_cons (r r2 : List Char) (rest : List (List Char)) :
    joinRanks (r :: r2 :: rest) = r ++ '/' :: joinRanks (r2 :: rest) := rfl

lemma joinRanks_split (rows : List (List Char)) (hne : rows ≠ [])
    (hclean : ∀ row ∈ rows, ∀ c ∈ row, c ≠ '/') :
    splitChars (fun c => c = '/') (joinRanks rows) = rows := by
  induction rows with
  | nil => exact absurd rfl hne
  | cons r rows ih =>
    cases rows with
    | nil =>
      show splitChars (fun c => c = '/') (joinRanks [r]) = [r]
      rw [joinRanks]
      exact splitChars_single _ r
        (fun c hc => decide_eq_false (hclean r (by simp) c hc))
    | cons r2 rest =>
      rw [joinRanks_cons_cons,
        splitChars_append_clean _ r
          (fun c hc => decide_eq_false (hclean r (by simp) c hc)) '/' (by decide) _,
        ih (List.cons_ne_nil r2 rest) (fun row hrow => hclean row (by simp [hrow]))]

lemma joinRanks_mem (rows : List (List Char)) (c : Char) (hc : c ∈ joinRanks rows) :
    c = '/' ∨ ∃ row ∈ rows, c ∈ row := by
  induction rows with
  | nil => simp [joinRanks] at hc
  | cons r rows ih =>
    cases rows with
    | nil =>
      rw [joinRanks] at hc
      exact Or.inr ⟨r, by simp, hc⟩
    | cons r2 rest =>
      rw [joinRanks_cons_cons] at hc
      rcases List.mem_append.mp hc with h1 | h2
      · exact Or.inr ⟨r, by simp, h1⟩
      · rcases List.mem_cons.mp h2 with h3 | h4
        · exact Or.inl h3
        · rcases ih h4 with h5 | ⟨row, hrow, hcrow⟩
          · exact Or.inl h5
          · exact Or.inr ⟨row, by simp [hrow], hcrow⟩

lemma fenRanks_len (ps : Nat → Option Piece) :
    ∀ sqs ∈ fenRanks ps, sqs.length = 8 := by
  intro sqs hsqs
  rcases List.mem_map.mp hsqs with ⟨r, _, rfl⟩
  simp [rankSquares]

lemma placementChars_clean (ps : Nat → Option Piece) :
    ∀ c ∈ placementChars ps, c.isWhitespace = false := by
  intro c hc
  rcases joinRanks_mem _ c hc with rfl | ⟨row, hrow, hcrow⟩
  · decide
  · rcases List.mem_map.mp hrow with ⟨sqs, hsqs, rfl⟩
    exact (encodeRankAux_clean sqs 0 (by simp [fenRanks_len ps sqs hsqs]) c hcrow).2

lemma placementChars_ne_nil (ps : Nat → Option Piece) : placementChars ps ≠ [] := by
  unfold placementChars fenRanks
  have h8 : (List.range 8).reverse = [7, 6, 5, 4, 3, 2, 1, 0] := by decide
  rw [h8]
  simp only [List.map_cons, joinRanks]
  simp

/-- The board string `fen_to_array` computes from an engine-produced FEN is
exactly the 64 square symbols in FEN order. -/
lemma boardString_fenOfPos (pos : Position) :
    boardString (fenOfPos pos)
      = .ok ((fenRanks pos.pieces).flatMap (fun sqs => sqs.map symbolChar)) := by
  unfold boardString fenOfPos fenChars
  simp only [String.data]
  rw [List.append_assoc, List.append_assoc, List.append_assoc]
  simp only [List.cons_append]
  rw [pyWords_head _ _ (placementChars_clean _) (placementChars_ne_nil _)]
  dsimp only
  unfold placementChars
  rw [joinRanks_split _ (by simp [fenRanks]) (fun row hrow c hcrow => by
    rcases List.mem_map.mp hrow with ⟨sqs, hsqs, rfl⟩
    exact (encodeRankAux_clean sqs 0 (by simp [fenRanks_len _ sqs hsqs]) c hcrow).1)]
  rw [List.map_map]
  congr 1
  rw [List.flatMap_def]
  congr 1
  refine List.map_congr_left (fun sqs hsqs => ?_)
  have := encodeRankAux_expand sqs 0 (by simp [fenRanks_len _ sqs hsqs])
  simpa using this

lemma piece_dict_symbolChar (x : Option Piece) : (piece_dict (symbolChar x)).isSome := by
  cases x with
  | none => decide
  | some p =>
    rcases p with ⟨c, k⟩
    cases c <;> cases k <;> decide

/-- Every engine-produced FEN passes the encoder's two validity checks. -/
lemma boardString_fenOfPos_spec (pos : Position) :
    ∃ bs, boardString (fenOfPos pos) = .ok bs ∧ bs.length = 64 ∧
      ∀ c ∈ bs, (piece_dict c).isSome := by
  refine ⟨_, boardString_fenOfPos pos, ?_, ?_⟩
  · have h8 : fenRanks pos.pieces
        = [rankSquares pos.pieces 7, rankSquares pos.pieces 6, rankSquares pos.pieces 5,
           rankSquares pos.pieces 4, rankSquares pos.pieces 3, rankSquares pos.pieces 2,
           rankSquares pos.pieces 1, rankSquares pos.pieces 0] := rfl
    rw [h8]
    simp [rankSquares]
  · intro c hc
    rcases List.mem_flatMap.mp hc with ⟨sqs, _, hcsqs⟩
    rcases List.mem_map.mp hcsqs with ⟨x, _, rfl⟩
    exact piece_dict_symbolChar x

/-- The encoder never fails on a FEN printed by the rules engine. -/
lemma fen_to_array_fenOfPos (pos : Position) :
    ∃ arr, fen_to_array (fenOfPos pos) = .ok arr := by
  obtain ⟨bs, hbs, hlen, hall⟩ := boardString_fenOfPos_spec pos
  obtain ⟨vs, hvs, _, _⟩ := classesOf_ok bs hall
  refine ⟨(vs.map oneHot13).flatten, ?_⟩
  rw [fen_to_array_eq _ bs hbs hlen, hvs]
  rfl

/-- The expansion loop succeeds whenever the target parses, and labels each
row by comparing its legal move with the parsed target. -/
lemma expandLoop_ok (pos : Position) (target : String) (tm : Move)
    (htm : parseUci target = some tm) (ms : List Move) :
    ∃ rows, expandLoop pos target ms = .ok rows ∧
      rows.map Prod.snd = ms.map (fun m => if m = tm then 1 else 0) ∧
      rows.length = ms.length := by
  induction ms with
  | nil => exact ⟨[], rfl, rfl, rfl⟩
  | cons m ms ih =>
    obtain ⟨rows, hrows, hmap, hlen⟩ := ih
    obtain ⟨arr, harr⟩ := fen_to_array_fenOfPos (applyMove pos m)
    refine ⟨(arr, if m = tm then 1 else 0) :: rows, ?_, ?_, ?_⟩
    · simp only [expandLoop, htm, harr, hrows]
    · simp [hmap]
    · simp [hlen]

/-- **C1.** For every position FEN and a target move that is legal from
that position (the legal-move list being duplicate-free, as the rules
engine guarantees), `possible_moves` returns one row per legal move, the
labels are exactly the indicator of move-identifier equality with the
parsed target (not string comparison), and exactly one row carries
label 1. -/
theorem C1_expand_rows (r : CleanRecord) (pos : Position) (tm : Move)
    (hpos : parseFen r.FEN = some pos)
    (htm : parseUci r.target_move = some tm)
    (hleg : tm ∈ legalMoves pos)
    (hnd : (legalMoves pos).Nodup) :
    ∃ rows, possible_moves r = .ok rows ∧
      rows.length = (legalMoves pos).length ∧
      rows.map Prod.snd = (legalMoves pos).map (fun m => if m = tm then 1 else 0) ∧
      rows.countP (fun row => row.2 == 1) = 1 := by
  obtain ⟨rows, hrows, hmap, hlen⟩ := expandLoop_ok pos r.target_move tm htm (legalMoves pos)
  refine ⟨rows, ?_, hlen, hmap, ?_⟩
  · simp only [possible_moves, hpos, hrows]
  · have h1 : rows.countP (fun row => row.2 == 1)
        = (rows.map Prod.snd).countP (fun v => v == 1) := by
      rw [List.countP_map]
      rfl
    rw [h1, hmap, List.countP_map]
    have h2 : ((fun v => v == 1) ∘ fun m => if m = tm then (1 : Nat) else 0)
        = fun m => m == tm := by
      funext m
      by_cases hm : m = tm <;> simp [hm]
    rw [h2]
    have h3 : (legalMoves pos).countP (fun m => m == tm)
        = (legalMoves pos).count tm := rfl
    rw [h3]
    exact List.count_eq_one_of_mem hnd hleg

/-- The all-empty board. -/
def emptyBoard : Nat → Option Piece := fun _ => none

/-- A placeholder position for `Option.getD`. -/
def dummyPos : Position := ⟨emptyBoard, .white, false, false, false, false, none, 0, 0⟩

/-- The position a FEN parses to (the placeholder when it does not parse). -/
def posOfFen (fen : String) : Position := (parseFen fen).getD dummyPos

theorem C1_expand_rows_witness :
    ∃ rows, possible_moves ⟨"k7/8/8/8/8/8/8/K7 w - - 0 1", "a1b1"⟩ = .ok rows ∧
      rows.length = (legalMoves (posOfFen "k7/8/8/8/8/8/8/K7 w - - 0 1")).length ∧
      rows.map Prod.snd = (legalMoves (posOfFen "k7/8/8/8/8/8/8/K7 w - - 0 1")).map
        (fun m => if m = ⟨0, 1, none, none⟩ then 1 else 0) ∧
      rows.countP (fun row => row.2 == 1) = 1 :=
  C1_expand_rows ⟨"k7/8/8/8/8/8/8/K7 w - - 0 1", "a1b1"⟩
    (posOfFen "k7/8/8/8/8/8/8/K7 w - - 0 1") ⟨0, 1, none, none⟩
    rfl (by decide) (by decide) (by decide)

/-- **C9.** On a terminal position (no legal moves) `possible_moves`
returns the empty row list — not an error — whatever the target string
is. -/
theorem C9_terminal_empty (fen target : String) (pos : Position)
    (hpos : parseFen fen = some pos) (hterm : legalMoves pos = []) :
    possible_moves ⟨fen, target⟩ = .ok [] := by
  simp only [possible_moves, hpos, hterm, expandLoop]

theorem C9_terminal_empty_witness :
    possible_moves ⟨"7k/5Q2/6K1/8/8/8/8/8 b - - 0 1", "this is not a move"⟩ = .ok [] :=
  C9_terminal_empty _ _ (posOfFen "7k/5Q2/6K1/8/8/8/8/8 b - - 0 1") rfl (by decide)

/-- **C10.** On a position with at least one legal move and a target string
that does not parse as a move identifier, `possible_moves` fails with the
move-parse error (raised inside the labelling comparison) instead of
returning rows that are all labelled 0. -/
theorem C10_bad_target_error (fen target : String) (pos : Position)
    (hpos : parseFen fen = some pos) (hne : legalMoves pos ≠ [])
    (hbad : parseUci target = none) :
    possible_moves ⟨fen, target⟩ = .error (.invalidMove target) := by
  obtain ⟨m, ms, hms⟩ : ∃ m ms, legalMoves pos = m :: ms := by
    cases h : legalMoves pos with
    | nil => exact absurd h hne
    | cons a as => exact ⟨a, as, rfl⟩
  simp only [possible_moves, hpos, hms, expandLoop, hbad]

theorem C10_bad_target_error_witness :
    possible_moves ⟨"rnbqkbnr/pppppppp/8/8/8/8/PPPPPPPP/RNBQKBNR w KQkq - 0 1", "xyzzy"⟩
      = .error (.invalidMove "xyzzy") :=
  C10_bad_target_error _ _
    (posOfFen "rnbqkbnr/pppppppp/8/8/8/8/PPPPPPPP/RNBQKBNR w KQkq - 0 1")
    rfl (by decide) (by decide)

/-- **C6.** For every starting FEN and a move column with at least two
whitespace-separated entries, `advance` (the per-record action of
`puzzle_cleaning` built on `single_move`) returns the FEN of the position
obtained by applying the first move together with the second entry taken
verbatim — whatever string it is, it is not validated — and fails with the
illegal-move error when the first move is well-formed but not legal. -/
theorem C6_advance (fen moves : String) (pos : Position)
    (w0 w1 : List Char) (ws : List (List Char))
    (hpos : parseFen fen = some pos)
    (hws : pyWords moves.data = w0 :: w1 :: ws) :
    (∀ m, parseUci (String.mk w0) = some m → m ∈ legalMoves pos →
        advance ⟨fen, moves⟩ = .ok ⟨fenOfPos (applyMove pos m), String.mk w1⟩) ∧
    (∀ m, parseUci (String.mk w0) = some m → m ∉ legalMoves pos →
        advance ⟨fen, moves⟩ = .error (.illegalMove (String.mk w0))) := by
  have h1 : (w0 :: w1 :: ws)[1]? = some w1 := by simp
  constructor
  · intro m hm hleg
    simp only [advance, single_move, hpos, hws, List.head?_cons, push_uci, hm,
      if_pos hleg, h1]
  · intro m hm hnleg
    simp only [advance, single_move, hpos, hws, List.head?_cons, push_uci, hm,
      if_neg hnleg]

/-- The standard starting FEN. -/
def startFen : String := "rnbqkbnr/pppppppp/8/8/8/8/PPPPPPPP/RNBQKBNR w KQkq - 0 1"

theorem C6_advance_witness :
    advance ⟨startFen, "e2e4 notavalidmove"⟩
      = .ok ⟨fenOfPos (applyMove (posOfFen startFen) ⟨12, 28, none, none⟩),
             "notavalidmove"⟩ ∧
    advance ⟨startFen, "e2e5 e7e5"⟩ = .error (.illegalMove "e2e5") :=
  ⟨(C6_advance startFen "e2e4 notavalidmove" (posOfFen startFen)
      "e2e4".data "notavalidmove".data [] rfl (by decide)).1
      ⟨12, 28, none, none⟩ (by decide) (by decide),
   (C6_advance startFen "e2e5 e7e5" (posOfFen startFen)
      "e2e5".data "e7e5".data [] rfl (by decide)).2
      ⟨12, 36, none, none⟩ (by decide) (by decide)⟩

/-- The number of legal moves of the position a cleaned record's FEN
denotes (0 when the FEN does not parse — processing such a record errors
anyway). -/
def legalMoveCount (r : CleanRecord) : Nat :=
  match parseFen r.FEN with
  | none => 0
  | some pos => (legalMoves pos).length

/-- A successful expansion loop yields one row per input move. -/
lemma expandLoop_length (pos : Position) (target : String) (ms : List Move)
    (rows : List (List Nat × Nat)) (h : expandLoop pos target ms = .ok rows) :
    rows.length = ms.length := by
  induction ms generalizing rows with
  | nil =>
    simp only [expandLoop, Except.ok.injEq] at h
    rw [← h]
    rfl
  | cons m ms ih =>
    simp only [expandLoop] at h
    cases ht : parseUci target with
    | none =>
      simp only [ht] at h
      exact Except.noConfusion h
    | some tm =>
      simp only [ht] at h
      cases ha : fen_to_array (fenOfPos (applyMove pos m)) with
      | error e =>
        simp only [ha] at h
        exact Except.noConfusion h
      | ok arr =>
        simp only [ha] at h
        cases hrest : expandLoop pos target ms with
        | error e =>
          simp only [hrest] at h
          exact Except.noConfusion h
        | ok rest =>
          simp only [hrest, Except.ok.injEq] at h
          rw [← h]
          simp [ih rest hrest]

/-- A successful `possible_moves` run yields one row per legal move of the
record's position. -/
lemma possible_moves_length (r : CleanRecord) (rows : List (List Nat × Nat))
    (h : possible_moves r = .ok rows) : rows.length = legalMoveCount r := by
  unfold possible_moves at h
  cases hp : parseFen r.FEN with
  | none =>
    simp only [hp] at h
    exact Except.noConfusion h
  | some pos =>
    simp only [hp] at h
    simp only [legalMoveCount, hp]
    exact expandLoop_length pos r.target_move _ rows h

/-- A successful batch produces only data rows, one per legal move of each
record of the batch. -/
lemma convertChunk_spec (rs : List CleanRecord) (lines : List CsvLine)
    (h : convertChunk rs = .ok lines) :
    lines.countP (fun l => l == CsvLine.header) = 0 ∧
    lines.countP (fun l => !(l == CsvLine.header)) = (rs.map legalMoveCount).sum := by
  unfold convertChunk at h
  cases hm : applyAll rs with
  | error e =>
    simp only [hm] at h
    exact Except.noConfusion h
  | ok dfs =>
    simp only [hm, Except.ok.injEq] at h
    have hall : ∀ l ∈ lines, ∃ p : List Nat × Nat, l = CsvLine.row p.1 p.2 := by
      intro l hl
      rw [← h] at hl
      rcases List.mem_map.mp hl with ⟨p, _, rfl⟩
      exact ⟨p, rfl⟩
    constructor
    · rw [List.countP_eq_zero]
      intro l hl
      obtain ⟨p, rfl⟩ := hall l hl
      simp
    · have hlen : lines.countP (fun l => !(l == CsvLine.header)) = lines.length := by
        rw [List.countP_eq_length]
        intro l hl
        obtain ⟨p, rfl⟩ := hall l hl
        simp
      rw [hlen, ← h, List.length_map]
      -- flatten length = sum of per-record row counts
      clear h hall hlen lines
      induction rs generalizing dfs with
      | nil =>
        simp only [applyAll, Except.ok.injEq] at hm
        rw [← hm]
        rfl
      | cons r rs ih =>
        simp only [applyAll] at hm
        cases hp : possible_moves r with
        | error e =>
          simp only [hp] at hm
          exact Except.noConfusion hm
        | ok rows =>
          simp only [hp] at hm
          cases ha : applyAll rs with
          | error e =>
            simp only [ha] at hm
            exact Except.noConfusion hm
          | ok rest =>
            simp only [ha, Except.ok.injEq] at hm
            rw [← hm]
            simp only [List.flatten_cons, List.length_append, List.map_cons,
              List.sum_cons]
            rw [possible_moves_length r rows hp, ih rest ha]

/-- What the chunk loop starting at index `i` writes: a single header line
exactly when `i = 0` and there is at least one chunk (and then it is the
first line), and one data row per legal move of every record. -/
lemma writeChunks_spec (chs : List (List CleanRecord)) (i : Nat) (lines : List CsvLine)
    (h : writeChunks i chs = .ok lines) :
    lines.countP (fun l => l == CsvLine.header)
        = (if i = 0 ∧ chs ≠ [] then 1 else 0) ∧
    lines.countP (fun l => !(l == CsvLine.header))
        = (chs.map (fun ch => (ch.map legalMoveCount).sum)).sum ∧
    (i = 0 → chs ≠ [] → lines.head? = some CsvLine.header) := by
  induction chs generalizing i lines with
  | nil =>
    simp only [writeChunks, Except.ok.injEq] at h
    rw [← h]
    refine ⟨by simp, by simp, fun _ hne => absurd rfl hne⟩
  | cons ch rest ih =>
    simp only [writeChunks] at h
    cases hc : convertChunk ch with
    | error e =>
      simp only [hc] at h
      exact Except.noConfusion h
    | ok rows =>
      simp only [hc] at h
      cases hw : writeChunks (i + 1) rest with
      | error e =>
        simp only [hw] at h
        exact Except.noConfusion h
      | ok tail =>
        simp only [hw, Except.ok.injEq] at h
        obtain ⟨hrows0, hrowsn⟩ := convertChunk_spec ch rows hc
        obtain ⟨htail0, htailn, _⟩ := ih (i + 1) tail hw
        have htail0' : tail.countP (fun l => l == CsvLine.header) = 0 := by
          rw [htail0]
          simp
        constructor
        · rw [← h]
          simp only [List.countP_append, hrows0, htail0']
          by_cases hi : i = 0
          · subst hi
            simp [List.countP_cons]
          · rw [if_neg hi, if_neg (by simp [hi])]
            simp
        constructor
        · rw [← h]
          simp only [List.countP_append, hrowsn, htailn, List.map_cons, List.sum_cons]
          by_cases hi : i = 0
          · subst hi
            simp [List.countP_cons]
          · rw [if_neg hi]
            simp
        · intro hi _
          subst hi
          rw [← h]
          simp

lemma chunksGo_flatten {α : Type} (l : List α) :
    ∀ (acc : List α) (k : Nat), (chunksGo l acc k).flatten = acc.reverse ++ l := by
  induction l with
  | nil =>
    intro acc k
    by_cases ha : acc.isEmpty
    · rw [chunksGo, if_pos ha]
      simp [List.isEmpty_iff.mp ha]
    · rw [chunksGo, if_neg ha]
      simp
  | cons x xs ih =>
    intro acc k
    cases k with
    | zero =>
      rw [chunksGo]
      simp [ih]
    | succ k =>
      rw [chunksGo]
      simp [ih]

lemma chunks100_flatten {α : Type} (l : List α) : (chunks100 l).flatten = l := by
  rw [chunks100, chunksGo_flatten]
  rfl

lemma chunksGo_ne_nil {α : Type} (l : List α) :
    ∀ (acc : List α) (k : Nat), acc ≠ [] → chunksGo l acc k ≠ [] := by
  induction l with
  | nil =>
    intro acc k ha
    rw [chunksGo, if_neg (by simpa [List.isEmpty_eq_false] using ha)]
    simp
  | cons x xs ih =>
    intro acc k ha
    cases k with
    | zero =>
      rw [chunksGo]
      simp
    | succ k =>
      rw [chunksGo]
      exact ih (x :: acc) k (List.cons_ne_nil x acc)

/-- **C4 (amended).** For every nonempty record source processed in batches
of 100, a successful `make_converted_file` run writes the header exactly
once, as the very first output line — the first batch writes header plus
data, later batches data only — and the number of data rows is the sum
over all records of the number of legal moves of that record's advanced
position. -/
theorem C4_converter (records : List CleanRecord) (lines : List CsvLine)
    (h : make_converted_file records = .ok lines) (hne : records ≠ []) :
    lines.head? = some CsvLine.header ∧
    lines.countP (fun l => l == CsvLine.header) = 1 ∧
    lines.countP (fun l => !(l == CsvLine.header))
      = (records.map legalMoveCount).sum := by
  unfold make_converted_file at h
  have hchne : chunks100 records ≠ [] := by
    cases records with
    | nil => exact absurd rfl hne
    | cons x xs =>
      show chunksGo xs [x] 99 ≠ []
      exact chunksGo_ne_nil xs [x] 99 (List.cons_ne_nil x [])
  obtain ⟨h1, h2, h3⟩ := writeChunks_spec (chunks100 records) 0 lines h
  refine ⟨h3 rfl hchne, ?_, ?_⟩
  · rw [h1, if_pos ⟨rfl, hchne⟩]
  · rw [h2]
    conv_rhs => rw [← chunks100_flatten records]
    rw [List.map_flatten, List.sum_flatten, List.map_map]
    rfl

/-- **C4, counterexample to the unrestricted claim.** With zero records the
batch loop never runs, so nothing — in particular no header line — is
written: the output is empty rather than starting with the header. -/
theorem C4_converter_counterexample :
    make_converted_file [] = .ok [] ∧
    (([] : List CsvLine).head? = some CsvLine.header → False) :=
  ⟨rfl, by simp⟩

theorem C4_converter_witness :
    ∃ lines, make_converted_file [⟨"k7/8/8/8/8/8/8/K7 w - - 0 1", "a1b1"⟩] = .ok lines ∧
      (lines.head? = some CsvLine.header ∧
       lines.countP (fun l => l == CsvLine.header) = 1 ∧
       lines.countP (fun l => !(l == CsvLine.header))
         = ([⟨"k7/8/8/8/8/8/8/K7 w - - 0 1", "a1b1"⟩].map legalMoveCount).sum) := by
  have hok : (match make_converted_file [⟨"k7/8/8/8/8/8/8/K7 w - - 0 1", "a1b1"⟩] with
      | .ok _ => true
      | .error _ => false) = true := by decide
  cases hrun : make_converted_file [⟨"k7/8/8/8/8/8/8/K7 w - - 0 1", "a1b1"⟩] with
  | error e =>
    rw [hrun] at hok
    exact Bool.noConfusion hok
  | ok lines =>
    exact ⟨lines, rfl, C4_converter _ lines hrun (by decide)⟩

/-- The FEN the pipeline produces after `e2e4` from the starting position:
the white e-pawn stands on e4. -/
def c8AdvFen : String := "rnbqkbnr/pppppppp/8/8/4P3/8/PPPP1PPP/RNBQKBNR b KQkq - 0 1"

/-- **C8.** End-to-end example: from the standard starting FEN with moves
`"e2e4 e7e5"`, `advance` produces the position whose placement has the
white e-pawn moved to e4 (and `e7e5` as the target), and `possible_moves`
on that advanced record returns exactly 20 rows — one per legal black
reply — where the row of the reply `e7e5` (square 52 to square 36) is
labelled 1 and the other 19 are labelled 0. -/
theorem C8_end_to_end :
    advance ⟨startFen, "e2e4 e7e5"⟩ = .ok ⟨c8AdvFen, "e7e5"⟩ ∧
    (pyWords c8AdvFen.data).head?
      = some "rnbqkbnr/pppppppp/8/8/4P3/8/PPPP1PPP/RNBQKBNR".data ∧
    ∃ rows, possible_moves ⟨c8AdvFen, "e7e5"⟩ = .ok rows ∧
      rows.length = 20 ∧
      rows.map Prod.snd = (legalMoves (posOfFen c8AdvFen)).map
        (fun m => if m = ⟨52, 36, none, none⟩ then 1 else 0) ∧
      rows.countP (fun row => row.2 == 1) = 1 := by
  refine ⟨by decide, by decide, ?_⟩
  obtain ⟨rows, hrows, hmap, hlen⟩ := expandLoop_ok (posOfFen c8AdvFen) "e7e5"
    ⟨52, 36, none, none⟩ (by decide) (legalMoves (posOfFen c8AdvFen))
  have hp : parseFen c8AdvFen = some (posOfFen c8AdvFen) := rfl
  refine ⟨rows, ?_, ?_, hmap, ?_⟩
  · simp only [possible_moves, hp, hrows]
  · rw [hlen]
    decide
  · have h1 : rows.countP (fun row => row.2 == 1)
        = (rows.map Prod.snd).countP (fun v => v == 1) := by
      rw [List.countP_map]
      rfl
    rw [h1, hmap, List.countP_map]
    have h2 : ((fun v => v == 1) ∘ fun m => if m = (⟨52, 36, none, none⟩ : Move)
        then (1 : Nat) else 0) = fun m => m == ⟨52, 36, none, none⟩ := by
      funext m
      by_cases hm : m = (⟨52, 36, none, none⟩ : Move) <;> simp [hm]
    rw [h2]
    decide
